import Mathlib

/-!
A shallow embedding of the `bindec` Go package (bindec.go) and proofs of the
specification's claims about it.

Modelling conventions:

* Go `int` (64-bit two's complement) is modelled by `Int`.  Bitwise AND and
  arithmetic right shift on `Int` agree exactly with their 64-bit counterparts
  on in-range values, so they are used directly (`Int.land`, floor division by
  a power of two).  Left shifts in the mask constructors can overflow, so they
  are reduced with an explicit two's-complement wrap at width 64 (`wrap64`),
  mirroring Go's wrap-around `int` arithmetic.
* Go `[]string` is modelled by `List String`.  A `nil` slice is `[]`: every
  decoder of the package only ever appends to the slice it receives, so a
  returned slice is `nil` exactly when it has no elements.
* The only operation in the decode path that can panic at runtime is the index
  expression `v.names[b]` (for a negative index `b`).  Decoders therefore
  return `Option (List String)`, where `none` models a runtime panic.
* `fmt.Sprintf` applied to a caller-supplied format template and one integer
  is modelled by `sprintf1`, which substitutes the decimal rendering of the
  argument for each `%d` verb; the claims treat the template abstractly.
  The two fixed format strings occurring in the source
  (`"bit %d: %s"` and `"%s%d: %s"`) are translated directly to string
  concatenation.
-/

/-- Reduce an integer to the 64-bit two's complement range
`[-2^63, 2^63)`, as Go's wrap-around `int` arithmetic does. -/
def wrap64 (x : ℤ) : ℤ :=
  (x + 2 ^ 63) % 2 ^ 64 - 2 ^ 63

/-- Go `1 << n` evaluated on `int`: the power `2 ^ n` wrapped to 64 bits. -/
def shl1 (n : Nat) : ℤ :=
  wrap64 (2 ^ n)

/-- Go `x & y` on `int`: bitwise AND of two's complement integers.
No overflow is possible, so no wrap is needed. -/
def land64 (x y : ℤ) : ℤ :=
  Int.land x y

/-- Go `x >> n` on `int` with an unsigned shift count: arithmetic right
shift, i.e. floor division by `2 ^ n` (Go keeps this semantics for every
count, including counts at or above the width). -/
def asr (x : ℤ) (n : Nat) : ℤ :=
  Int.fdiv x (2 ^ n)

/-- Go slice indexing `xs[i]` with an `int` index: panics (modelled by
`none`) unless `0 ≤ i < len(xs)`. -/
def goIndex (xs : List String) (i : ℤ) : Option String :=
  if h : 0 ≤ i ∧ i.toNat < xs.length then some (xs.get ⟨i.toNat, h.2⟩)
  else none

/-- Model of Go `fmt.Sprintf(format, b)` for a format template with integer
verbs: each `%d` verb is replaced by the decimal rendering of `b`.  The
claims treat the caller-supplied template abstractly, so the exact verb set
supported is immaterial to the theorems below. -/
def sprintf1 (format : String) (b : ℤ) : String :=
  String.intercalate (toString b) (format.splitOn "%d")

namespace bindec

/-- The `Decoder` interface: `Decode(w []string, val int) []string`.
The `Option` layer records the possibility of a runtime panic (`none`). -/
abbrev Decoder := List String → ℤ → Option (List String)

/-- The `signal` struct backing both `Sig` and `Flag`. -/
structure signal where
  pos : Nat
  mask : ℤ
  name : String
  isFlag : Bool
  negate : Bool

/-- `(s *signal) Decode(w []string, val int) []string`. -/
def signalDecode (s : signal) : Decoder := fun w val =>
  let v : Bool := decide (land64 val s.mask ≠ 0)
  let v : Bool := if s.negate then !v else v
  if s.isFlag then
    some (w ++ [if v then s.name else "!" ++ s.name])
  else if land64 val s.mask = 0 then
    some w
  else
    some (w ++ [if s.name = "<reserved>" then
                  "bit " ++ toString s.pos ++ ": " ++ s.name
                else s.name])

/-- `Sig(pos uint, name string) Decoder`. -/
def Sig (pos : Nat) (name : String) : Decoder :=
  signalDecode { pos := pos, mask := shl1 pos, name := name,
                 isFlag := false, negate := false }

/-- Go `strings.HasPrefix(s, "!")`: the first byte of `s` is `'!'`. -/
def hasBang (s : String) : Bool :=
  match s.data with
  | [] => false
  | c :: _ => c = '!'

/-- Go `s[1:]` for a string whose first byte is the one-byte char `'!'`. -/
def dropBang (s : String) : String :=
  String.mk s.data.tail

/-- `Flag(pos uint, name string) Decoder`: a leading `"!"` is stripped and
recorded in the `negate` field. -/
def Flag (pos : Nat) (name : String) : Decoder :=
  if hasBang name then
    signalDecode { pos := pos, mask := shl1 pos, name := dropBang name,
                   isFlag := true, negate := true }
  else
    signalDecode { pos := pos, mask := shl1 pos, name := name,
                   isFlag := true, negate := false }

/-- The `value` struct backing `Val`. -/
structure value where
  pos : Nat
  mask : ℤ
  desc : String
  names : List String
  dflt : String

/-- `(v *value) Decode(w []string, b int) []string`.  The Go expression
`b & v.mask >> v.pos` parses as `(b & v.mask) >> v.pos` (in Go, `&` and
`>>` share one precedence level and associate left). -/
def valueDecode (v : value) : Decoder := fun w bIn =>
  let b := asr (land64 bIn v.mask) v.pos
  let sOpt : Option String :=
    if b < (v.names.length : ℤ) then goIndex v.names b
    else if v.dflt ≠ "" then some v.dflt
    else some ""
  match sOpt with
  | none => none
  | some s =>
    let desc := if v.desc ≠ "" then v.desc ++ ": " else v.desc
    if s = "<reserved>" then some (w ++ [desc ++ toString b ++ ": " ++ s])
    else if s = "" then some w
    else some (w ++ [desc ++ s])

/-- `Val(startBit, endBit uint, desc string, names []string, dflt string)`:
the mask is `((1 << (endBit+1)) - 1) - ((1 << startBit) - 1)` in wrap-around
`int` arithmetic. -/
def mkMask (startBit endBit : Nat) : ℤ :=
  wrap64 (wrap64 (shl1 (endBit + 1) - 1) - wrap64 (shl1 startBit - 1))

/-- `Val` constructor. -/
def Val (startBit endBit : Nat) (desc : String) (names : List String)
    (dflt : String) : Decoder :=
  valueDecode { pos := startBit, mask := mkMask startBit endBit,
                desc := desc, names := names, dflt := dflt }

/-- The `intval` struct backing `Int` and `Func`; `f = none` models the
`nil` function pointer. -/
structure intval where
  pos : Nat
  mask : ℤ
  desc : String
  format : String
  f : Option (ℤ → String)

/-- `(v *intval) Decode(w []string, b int) []string`. -/
def intvalDecode (v : intval) : Decoder := fun w bIn =>
  let b := asr (land64 bIn v.mask) v.pos
  let s : String :=
    match v.f with
    | none => sprintf1 v.format b
    | some f => f b
  if v.desc = "" then some w
  else some (w ++ [v.desc ++ ": " ++ s])

/-- `Int(startBit, endBit uint, desc string, format string) Decoder`. -/
def Int (startBit endBit : Nat) (desc : String) (format : String) : Decoder :=
  intvalDecode { pos := startBit, mask := mkMask startBit endBit,
                 desc := desc, format := format, f := none }

/-- `Func(startBit, endBit uint, desc string, f func(int) string) Decoder`. -/
def Func (startBit endBit : Nat) (desc : String) (f : ℤ → String) :
    Decoder :=
  intvalDecode { pos := startBit, mask := mkMask startBit endBit,
                 desc := desc, format := "", f := some f }

/-- `type DecoderList []Decoder`. -/
abbrev DecoderList := List Decoder

/-- `(list DecoderList) Decode(w []string, val int) []string`: fold the
members over the accumulator in declaration order (a panic anywhere
aborts the whole decode, as in Go). -/
def decoderListDecode : DecoderList → Decoder
  | [], w, _ => some w
  | d :: rest, w, val =>
    match d w val with
    | none => none
    | some w2 => decoderListDecode rest w2 val

/-- `NewDecoderList(decoders ...[]Decoder) Decoder`: concatenate the given
slices of decoders into one flat list. -/
def NewDecoderList (decoders : List (List Decoder)) : Decoder :=
  decoderListDecode (decoders.foldl (fun list d => list ++ d) [])

/-- The `shift` struct. -/
structure shift where
  pos : Nat
  d : Decoder

/-- `(s shift) Decode(w []string, val int) []string`. -/
def shiftDecode (s : shift) : Decoder := fun w val =>
  s.d w (asr val s.pos)

/-- `Shift(pos uint, d Decoder) Decoder`. -/
def Shift (pos : Nat) (d : Decoder) : Decoder :=
  shiftDecode { pos := pos, d := d }

/-- The `group` struct. -/
structure group where
  name : String
  d : Decoder

/-- `(g group) Decode(w []string, val int) []string`: run the sub-decoder on
a fresh `nil` accumulator; `sub == nil` is `sub = []` in the list model. -/
def groupDecode (g : group) : Decoder := fun w val =>
  match g.d [] val with
  | none => none
  | some sub =>
    if sub = [] then some w
    else some (w ++ g.name :: sub.map (fun s => "\t" ++ s))

/-- `Group(name string, d Decoder) Decoder`. -/
def Group (name : String) (d : Decoder) : Decoder :=
  groupDecode { name := name, d := d }

/-- Decoder trees built from the public constructors of the package, with
bit positions within the 64-bit host integer width (for the range-based
constructors: `startBit ≤ endBit` and `endBit + 1 < 64`). -/
inductive Built : Decoder → Prop where
  | sig (pos : Nat) (name : String) (h : pos ≤ 63) : Built (Sig pos name)
  | flag (pos : Nat) (name : String) (h : pos ≤ 63) : Built (Flag pos name)
  | val (s e : Nat) (desc : String) (names : List String) (dflt : String)
      (hse : s ≤ e) (he : e ≤ 62) : Built (Val s e desc names dflt)
  | int (s e : Nat) (desc format : String)
      (hse : s ≤ e) (he : e ≤ 62) : Built (Int s e desc format)
  | func (s e : Nat) (desc : String) (f : ℤ → String)
      (hse : s ≤ e) (he : e ≤ 62) : Built (Func s e desc f)
  | list (ds : List Decoder) (h : ∀ d ∈ ds, Built d) :
      Built (decoderListDecode ds)
  | shifted (pos : Nat) (d : Decoder) (h : Built d) : Built (Shift pos d)
  | grouped (name : String) (d : Decoder) (h : Built d) :
      Built (Group name d)

end bindec

/-! ### Arithmetic facts about the embedded machine operations -/

/-- `wrap64` is the identity on the 64-bit two's complement range. -/
theorem bd_wrap64_id (x : ℤ) (h1 : -(2 ^ 63) ≤ x) (h2 : x < 2 ^ 63) :
    wrap64 x = x := by
  unfold wrap64
  omega

/-- Go `1 << n` on `int` is the exact power for `n ≤ 62`. -/
theorem bd_shl1_eq {n : Nat} (h : n ≤ 62) : shl1 n = 2 ^ n := by
  have h1 : (0 : ℤ) < 2 ^ n := by positivity
  have h2 : (2 : ℤ) ^ n ≤ 2 ^ 62 := by
    exact pow_le_pow_right₀ (by norm_num) h
  unfold shl1 wrap64
  omega

/-- The constructor mask `((1 << (e+1)) - 1) - ((1 << s) - 1)` computed in
wrap-around `int` arithmetic equals the exact value `2 ^ (e+1) - 2 ^ s`
whenever `s ≤ e` and `e + 1 < 64` (even in the case `e + 1 = 63`, where the
intermediate shift overflows and wraps). -/
theorem bd_mkMask_eq {s e : Nat} (hse : s ≤ e) (he : e ≤ 62) :
    bindec.mkMask s e = 2 ^ (e + 1) - 2 ^ s := by
  have ha1 : (0 : ℤ) < 2 ^ (e + 1) := by positivity
  have hb1 : (0 : ℤ) < 2 ^ s := by positivity
  have ha2 : (2 : ℤ) ^ (e + 1) ≤ 2 ^ 63 :=
    pow_le_pow_right₀ (by norm_num) (by omega)
  have hb2 : (2 : ℤ) ^ s ≤ 2 ^ 62 :=
    pow_le_pow_right₀ (by norm_num) (by omega)
  have hba : (2 : ℤ) ^ s ≤ 2 ^ (e + 1) :=
    pow_le_pow_right₀ (by norm_num) (by omega)
  unfold bindec.mkMask shl1 wrap64
  omega

/-- The in-range mask as a cast of the corresponding natural number. -/
theorem bd_mkMask_natCast {s e : Nat} (hse : s ≤ e) (he : e ≤ 62) :
    bindec.mkMask s e = ((2 ^ (e + 1) - 2 ^ s : Nat) : ℤ) := by
  rw [bd_mkMask_eq hse he,
    Nat.cast_sub (Nat.pow_le_pow_right (by norm_num) (by omega))]
  push_cast
  ring

/-- Bitwise AND with a nonnegative right operand is nonnegative
(two's complement). -/
theorem bd_land64_nonneg (x : ℤ) (m : Nat) :
    0 ≤ land64 x ((m : Nat) : ℤ) := by
  cases x with
  | ofNat a => exact Int.ofNat_nonneg (a &&& m)
  | negSucc a => exact Int.ofNat_nonneg (Nat.ldiff m a)

/-- AND of two nonnegative integers computes on the naturals. -/
theorem bd_land64_natCast (a m : Nat) :
    land64 ((a : Nat) : ℤ) ((m : Nat) : ℤ) = ((a &&& m : Nat) : ℤ) :=
  rfl

/-- Arithmetic right shift of a nonnegative integer computes on the
naturals. -/
theorem bd_asr_natCast (a p : Nat) :
    asr ((a : Nat) : ℤ) p = ((a / 2 ^ p : Nat) : ℤ) := by
  unfold asr
  rw [show ((2 : ℤ) ^ p) = ((2 ^ p : Nat) : ℤ) by push_cast; ring,
    Int.fdiv_eq_ediv _ (Int.ofNat_nonneg _)]
  exact (Int.natCast_div a (2 ^ p)).symm

/-- Arithmetic right shift preserves nonnegativity. -/
theorem bd_asr_nonneg {x : ℤ} (h : 0 ≤ x) (p : Nat) : 0 ≤ asr x p :=
  Int.fdiv_nonneg h (by positivity)

/-- The bits of the natural-number mask: exactly positions `s` through `e`
are set. -/
theorem bd_natMask_testBit {s e : Nat} (hse : s ≤ e) (i : Nat) :
    (2 ^ (e + 1) - 2 ^ s).testBit i = decide (s ≤ i ∧ i ≤ e) := by
  have hfact : 2 ^ (e + 1) - 2 ^ s = 2 ^ s * (2 ^ (e + 1 - s) - 1) := by
    rw [Nat.mul_sub, Nat.mul_one, ← Nat.pow_add]
    congr 2
    omega
  rw [hfact, Nat.testBit_mul_pow_two, Nat.testBit_two_pow_sub_one,
    Bool.eq_iff_iff]
  simp only [Bool.and_eq_true, decide_eq_true_eq, ge_iff_le]
  omega

/-- Extracting the masked field and shifting it down yields the bits `s`
through `e` of the input, as a number (natural-number version). -/
theorem bd_nat_extract (n : Nat) {s e : Nat} (hse : s ≤ e) :
    (n &&& (2 ^ (e + 1) - 2 ^ s)) / 2 ^ s = n / 2 ^ s % 2 ^ (e + 1 - s) := by
  apply Nat.eq_of_testBit_eq
  intro j
  rw [← Nat.shiftRight_eq_div_pow, ← Nat.shiftRight_eq_div_pow,
    Nat.testBit_shiftRight, Nat.testBit_mod_two_pow, Nat.testBit_shiftRight,
    Nat.testBit_land, bd_natMask_testBit hse]
  by_cases h2 : n.testBit (s + j)
  · rw [h2]
    simp only [Bool.true_and, Bool.and_true, decide_eq_decide]
    omega
  · rw [Bool.not_eq_true] at h2
    rw [h2]
    simp only [Bool.false_and, Bool.and_false]

/-- AND with a single power of two isolates that bit of the two's
complement representation. -/
theorem bd_land64_two_pow (x : ℤ) (p : Nat) :
    land64 x ((2 : ℤ) ^ p) = if x.testBit p then 2 ^ p else 0 := by
  have hc : ((2 : ℤ) ^ p) = ((2 ^ p : Nat) : ℤ) := by push_cast; ring
  rw [hc]
  cases x with
  | ofNat a =>
    have h1 : land64 (Int.ofNat a) ((2 ^ p : Nat) : ℤ) =
        ((a &&& 2 ^ p : Nat) : ℤ) := rfl
    have h2 : Int.testBit (Int.ofNat a) p = a.testBit p := rfl
    rw [h1, h2, Nat.and_two_pow]
    cases h : a.testBit p <;> simp
  | negSucc a =>
    have h1 : land64 (Int.negSucc a) ((2 ^ p : Nat) : ℤ) =
        ((Nat.ldiff (2 ^ p) a : Nat) : ℤ) := rfl
    have h2 : Int.testBit (Int.negSucc a) p = !a.testBit p := rfl
    have h3 : Nat.ldiff (2 ^ p) a = if a.testBit p then 0 else 2 ^ p := by
      apply Nat.eq_of_testBit_eq
      intro i
      rw [Nat.testBit_ldiff, Nat.testBit_two_pow]
      by_cases hpi : p = i
      · subst hpi
        cases h : a.testBit p <;> simp [h]
      · cases h : a.testBit p <;>
          simp [hpi, Nat.zero_testBit, Nat.testBit_two_pow]
    rw [h1, h2, h3]
    cases h : a.testBit p <;> simp

/-- The signal test `val & (1 << pos) == 0` holds exactly when bit `pos` of
the value is clear. -/
theorem bd_land64_two_pow_eq_zero (x : ℤ) (p : Nat) :
    land64 x ((2 : ℤ) ^ p) = 0 ↔ x.testBit p = false := by
  rw [bd_land64_two_pow]
  cases h : x.testBit p <;> simp [pow_ne_zero]

/-! ### Shared helper lemmas about the decoders -/

/-- The signal/flag bit test `val & (1 << pos) != 0` computes the bit `pos`
of the two's complement value, for positions below 63. -/
theorem bd_signal_test (x : ℤ) (p : Nat) (hp : p ≤ 62) :
    decide (land64 x (shl1 p) ≠ 0) = x.testBit p := by
  rw [bd_shl1_eq hp]
  cases h : x.testBit p
  · have h0 : land64 x ((2 : ℤ) ^ p) = 0 :=
      (bd_land64_two_pow_eq_zero x p).mpr h
    simp [h0]
  · have hne : land64 x ((2 : ℤ) ^ p) ≠ 0 := by
      rw [bd_land64_two_pow, h, if_pos rfl]
      positivity
    simp [hne]

/-- The emission step of `value.Decode` matches the claim's formulation:
checking the empty string before the reserved sentinel is equivalent to the
code's order, and an empty description produces an empty prefix. -/
theorem bd_emit_eq (str desc tb : String) (acc : List String) :
    (if str = "<reserved>" then
       some (acc ++ [(if desc ≠ "" then desc ++ ": " else desc) ++
         tb ++ ": " ++ str])
     else if str = "" then some acc
     else some (acc ++ [(if desc ≠ "" then desc ++ ": " else desc) ++ str])) =
    (if str = "" then some acc
     else if str = "<reserved>" then
       some (acc ++ [(if desc ≠ "" then desc ++ ": " else "") ++
         tb ++ ": " ++ "<reserved>"])
     else some (acc ++ [(if desc ≠ "" then desc ++ ": " else "") ++ str])) := by
  by_cases h1 : str = "" <;> by_cases h2 : str = "<reserved>" <;>
    by_cases hd : desc = "" <;> simp [h1, h2, hd]

/-- Normal form of `Val(s, e, desc, names, dflt).Decode(acc, v)` for an
in-width bit range: no panic occurs, the extracted field indexes the names
table when it is a valid index, otherwise a non-empty default is used, and
the emission rules of the claim apply. -/
theorem bd_val_decode_eq (s e : Nat) (desc dflt : String)
    (names acc : List String) (v : ℤ) (hse : s ≤ e) (he : e ≤ 62) :
    bindec.Val s e desc names dflt acc v =
      (let b := asr (land64 v (bindec.mkMask s e)) s
       let str := if hb : b.toNat < names.length then names.get ⟨b.toNat, hb⟩
                  else if dflt ≠ "" then dflt else ""
       let px := if desc ≠ "" then desc ++ ": " else ""
       if str = "" then some acc
       else if str = "<reserved>" then
         some (acc ++ [px ++ toString b ++ ": " ++ "<reserved>"])
       else some (acc ++ [px ++ str])) := by
  have hb0 : 0 ≤ asr (land64 v (bindec.mkMask s e)) s := by
    rw [bd_mkMask_natCast hse he]
    exact bd_asr_nonneg (bd_land64_nonneg v _) s
  simp only [bindec.Val, bindec.valueDecode]
  set b := asr (land64 v (bindec.mkMask s e)) s with hbdef
  by_cases hlt : b < (names.length : ℤ)
  · have hbn : b.toNat < names.length := (Int.toNat_lt hb0).mpr hlt
    have hgi : goIndex names b = some (names.get ⟨b.toNat, hbn⟩) := by
      unfold goIndex
      rw [dif_pos ⟨hb0, hbn⟩]
    rw [if_pos hlt, hgi, dif_pos hbn]
    exact bd_emit_eq (names.get ⟨b.toNat, hbn⟩) desc (toString b) acc
  · have hbn : ¬ b.toNat < names.length := fun hc =>
      hlt ((Int.toNat_lt hb0).mp hc)
    rw [if_neg hlt, dif_neg hbn]
    by_cases hdft : dflt = ""
    · simp [hdft]
    · rw [if_pos hdft, if_pos hdft]
      exact bd_emit_eq dflt desc (toString b) acc

/-- Prefixing a string with `"!"` makes `hasBang` true. -/
theorem bd_hasBang_append (name : String) :
    bindec.hasBang ("!" ++ name) = true := rfl

/-- Stripping the prefixed `"!"` recovers the original name. -/
theorem bd_dropBang_append (name : String) :
    bindec.dropBang ("!" ++ name) = name := rfl

/-- `list.foldl append` flattens a list of lists in order. -/
theorem bd_foldl_append (dss : List (List bindec.Decoder))
    (init : List bindec.Decoder) :
    dss.foldl (fun list d => list ++ d) init = init ++ dss.flatten := by
  induction dss generalizing init with
  | nil => simp
  | cons hd tl ih => simp [ih]

/-- `signal.Decode` never panics. -/
theorem bd_signalDecode_total (s : bindec.signal) (acc : List String)
    (v : ℤ) : ∃ out, bindec.signalDecode s acc v = some out := by
  unfold bindec.signalDecode
  by_cases h1 : s.isFlag
  · rw [if_pos h1]
    exact ⟨_, rfl⟩
  · rw [if_neg h1]
    by_cases h2 : land64 v s.mask = 0
    · rw [if_pos h2]
      exact ⟨acc, rfl⟩
    · rw [if_neg h2]
      exact ⟨_, rfl⟩

/-- A two-level conditional whose leaves are all `some` is `some`. -/
theorem bd_opt_ite_total (c1 c2 : Prop) [Decidable c1] [Decidable c2]
    (a x y : List String) :
    ∃ out, (if c1 then some a else if c2 then some x else some y) =
      some out := by
  by_cases h1 : c1
  · rw [if_pos h1]
    exact ⟨a, rfl⟩
  · rw [if_neg h1]
    by_cases h2 : c2
    · rw [if_pos h2]
      exact ⟨x, rfl⟩
    · rw [if_neg h2]
      exact ⟨y, rfl⟩

/-- `value.Decode` never panics for an in-width bit range. -/
theorem bd_val_total (s e : Nat) (desc : String) (names : List String)
    (dflt : String) (hse : s ≤ e) (he : e ≤ 62) (acc : List String)
    (v : ℤ) : ∃ out, bindec.Val s e desc names dflt acc v = some out := by
  rw [bd_val_decode_eq s e desc dflt names acc v hse he]
  exact bd_opt_ite_total _ _ _ _ _

/-- `intval.Decode` never panics. -/
theorem bd_intvalDecode_total (iv : bindec.intval) (acc : List String)
    (v : ℤ) : ∃ out, bindec.intvalDecode iv acc v = some out := by
  unfold bindec.intvalDecode
  by_cases h : iv.desc = ""
  · rw [if_pos h]
    exact ⟨acc, rfl⟩
  · rw [if_neg h]
    exact ⟨_, rfl⟩

/-- `DecoderList.Decode` never panics when no member panics. -/
theorem bd_decoderListDecode_total (ds : List bindec.Decoder)
    (h : ∀ d ∈ ds, ∀ (acc : List String) (v : ℤ), ∃ out, d acc v = some out) :
    ∀ (acc : List String) (v : ℤ),
      ∃ out, bindec.decoderListDecode ds acc v = some out := by
  induction ds with
  | nil => exact fun acc v => ⟨acc, rfl⟩
  | cons d rest ih =>
    intro acc v
    obtain ⟨out1, h1⟩ := h d (by simp) acc v
    obtain ⟨out2, h2⟩ :=
      ih (fun d2 hd2 acc2 v2 => h d2 (by simp [hd2]) acc2 v2) out1 v
    exact ⟨out2, by simp [bindec.decoderListDecode, h1, h2]⟩

/-! ### The claims -/

/-- C1: `Group(n, d).Decode(acc, v)` first runs `d` on a fresh empty
accumulator with the same value `v`, producing `sub`; if `sub` is empty the
caller's accumulator is returned unchanged (the group name does not appear
at all); otherwise the result is `acc` followed by `n` followed by every
element of `sub` in order, each prefixed by exactly one tab indent
marker. -/
theorem group_decode_spec (d : bindec.Decoder) (n : String)
    (acc : List String) (v : ℤ) (sub : List String) (h : d [] v = some sub) :
    bindec.Group n d acc v =
      (if sub = [] then some acc
       else some (acc ++ n :: sub.map (fun line => "\t" ++ line))) := by
  simp only [bindec.Group, bindec.groupDecode, h]

/-- Witness for C1 at a concrete decoder, name, accumulator and value. -/
theorem group_decode_spec_witness :
    bindec.Sig 0 "A" [] (1 : ℤ) = some ["A"] ∧
    bindec.Group "G" (bindec.Sig 0 "A") ["x"] 1 = some ["x", "G", "\tA"] := by
  have h : bindec.Sig 0 "A" [] (1 : ℤ) = some ["A"] := by decide
  refine ⟨h, ?_⟩
  rw [group_decode_spec (bindec.Sig 0 "A") "G" ["x"] 1 ["A"] h]
  decide

/-- C2: the list decoder feeds each member the running accumulator in
declaration order (head first), concatenating member outputs in that
order, and `NewDecoderList` decodes identically to the flattening of its
argument sequences with the original relative order preserved. -/
theorem list_decode_spec (d : bindec.Decoder) (ds : List bindec.Decoder)
    (dss : List (List bindec.Decoder)) (acc : List String) (v : ℤ) :
    bindec.decoderListDecode [] acc v = some acc ∧
    bindec.decoderListDecode (d :: ds) acc v =
      (d acc v).bind (fun acc2 => bindec.decoderListDecode ds acc2 v) ∧
    bindec.NewDecoderList dss acc v =
      bindec.decoderListDecode dss.flatten acc v := by
  refine ⟨rfl, ?_, ?_⟩
  · cases h : d acc v <;> simp [bindec.decoderListDecode, h]
  · unfold bindec.NewDecoderList
    rw [bd_foldl_append, List.nil_append]

/-- C7: `Shift(k, d).Decode(acc, v)` delegates to the wrapped decoder with
the value arithmetically shifted right by `k` bits (floor division by
`2 ^ k`), passing the accumulator through unchanged and returning the
result unchanged. -/
theorem shift_decode_spec (k : Nat) (d : bindec.Decoder)
    (acc : List String) (v : ℤ) :
    bindec.Shift k d acc v = d acc (Int.fdiv v (2 ^ k)) := rfl

/-- C10: for `Int` the rendered string comes from the format template
applied to the extracted field, for `Func` from the conversion function
applied to the extracted field; an empty description suppresses output
entirely, otherwise exactly one element `desc ++ ": " ++ s` is appended. -/
theorem int_func_decode_spec (s e : Nat) (desc format : String)
    (f : ℤ → String) (acc : List String) (v : ℤ) :
    (bindec.Int s e desc format acc v =
      if desc = "" then some acc
      else some (acc ++ [desc ++ ": " ++
        sprintf1 format (asr (land64 v (bindec.mkMask s e)) s)])) ∧
    (bindec.Func s e desc f acc v =
      if desc = "" then some acc
      else some (acc ++ [desc ++ ": " ++
        f (asr (land64 v (bindec.mkMask s e)) s)])) :=
  ⟨rfl, rfl⟩

/-- C3: for `Val(s, e, desc, names, dflt)` with an in-width range, the
extracted field `b = (v & mask) >> s` resolves to `names[b]` when `b` is a
valid index, else to a non-empty default, else to the empty string; the
prefix is `desc ++ ": "` when `desc` is non-empty and empty otherwise;
nothing is appended for an empty resolved string, the reserved sentinel is
rendered with the decimal field value, and otherwise `prefix ++ s` is
appended. -/
theorem val_decode_spec (s e : Nat) (desc dflt : String)
    (names acc : List String) (v : ℤ) (hse : s ≤ e) (he : e ≤ 62) :
    bindec.Val s e desc names dflt acc v =
      (let b := asr (land64 v (bindec.mkMask s e)) s
       let str := if hb : b.toNat < names.length then names.get ⟨b.toNat, hb⟩
                  else if dflt ≠ "" then dflt else ""
       let px := if desc ≠ "" then desc ++ ": " else ""
       if str = "" then some acc
       else if str = "<reserved>" then
         some (acc ++ [px ++ toString b ++ ": " ++ "<reserved>"])
       else some (acc ++ [px ++ str])) :=
  bd_val_decode_eq s e desc dflt names acc v hse he

/-- Witness for C3: field value 3 of the input 6 on bit range 1..3 selects
the fourth name. -/
theorem val_decode_spec_witness :
    bindec.Val 1 3 "f" ["a", "b", "c", "d"] "D" [] 6 = some ["f: d"] := by
  rw [val_decode_spec 1 3 "f" "D" ["a", "b", "c", "d"] [] 6 (by norm_num)
    (by norm_num)]
  decide

/-- C4 is false on the code: with an in-range names entry that is the empty
string and a non-empty configured default, `value.Decode` emits nothing;
the default label is not consulted. -/
theorem val_default_fallback_counterexample :
    bindec.Val 0 0 "" [""] "DFLT" [] 0 = some [] ∧
    ¬ bindec.Val 0 0 "" [""] "DFLT" [] 0 = some ["DFLT"] := by
  constructor
  · decide
  · decide

/-- C4 (amended): when the extracted field `b` is a valid index into the
names table, the resolved string is `names[b]` even when that entry is
empty: an empty entry emits nothing, and the configured default is not
consulted; the default participates only when `b` is at or beyond the
length of the names table. -/
theorem val_empty_name_amended (s e : Nat) (desc dflt : String)
    (names acc : List String) (v : ℤ) (hse : s ≤ e) (he : e ≤ 62)
    (hb : (asr (land64 v (bindec.mkMask s e)) s).toNat < names.length)
    (hempty :
      names.get ⟨(asr (land64 v (bindec.mkMask s e)) s).toNat, hb⟩ = "") :
    bindec.Val s e desc names dflt acc v = some acc := by
  rw [bd_val_decode_eq s e desc dflt names acc v hse he]
  simp only [List.get_eq_getElem] at hempty
  simp [hb, hempty]

/-- Witness for the amended C4 at a concrete decoder and value. -/
theorem val_empty_name_amended_witness :
    bindec.Val 0 0 "x" ["", "y"] "DFLT" ["k"] 0 = some ["k"] :=
  val_empty_name_amended 0 0 "x" "DFLT" ["", "y"] ["k"] 0 (by norm_num)
    (by norm_num) (by decide) (by decide)

/-- At the sign-bit position 63 the Go shift `1 << 63` wraps to the sign
mask; for values in the `int64` range the signal test still computes
exactly bit 63 of the two's complement value. -/
theorem bd_signal_test63 (x : ℤ) (hlo : -(2 ^ 63) ≤ x) (hhi : x < 2 ^ 63) :
    decide (land64 x (shl1 63) ≠ 0) = x.testBit 63 := by
  have hmask : shl1 63 = Int.negSucc (2 ^ 63 - 1) := by decide
  rw [hmask]
  cases x with
  | ofNat a =>
    have ha : a < 2 ^ 63 := by
      rw [Int.ofNat_eq_natCast] at hhi
      omega
    have h1 : land64 (Int.ofNat a) (Int.negSucc (2 ^ 63 - 1)) =
        Int.ofNat (Nat.ldiff a (2 ^ 63 - 1)) := rfl
    have h2 : Nat.ldiff a (2 ^ 63 - 1) = 0 := by
      apply Nat.eq_of_testBit_eq
      intro i
      rw [Nat.testBit_ldiff, Nat.testBit_two_pow_sub_one, Nat.zero_testBit]
      by_cases hi : i < 63
      · simp [hi]
      · have hbit : a.testBit i = false :=
          Nat.testBit_lt_two_pow
            (lt_of_lt_of_le ha (Nat.pow_le_pow_right (by norm_num) (by omega)))
        simp [hbit]
    have h3 : Int.testBit (Int.ofNat a) 63 = a.testBit 63 := rfl
    rw [h1, h2, h3, Nat.testBit_lt_two_pow ha]
    decide
  | negSucc m =>
    have hm : m < 2 ^ 63 := by
      rw [Int.negSucc_eq] at hlo
      omega
    have h1 : land64 (Int.negSucc m) (Int.negSucc (2 ^ 63 - 1)) =
        Int.negSucc (m ||| (2 ^ 63 - 1)) := rfl
    have h2 : Int.testBit (Int.negSucc m) 63 = !(m.testBit 63) := rfl
    rw [h1, h2, Nat.testBit_lt_two_pow hm]
    simp [Int.negSucc_ne_zero]

/-- The signal test computes the bit at every in-width position: positions
up to 62 unconditionally, position 63 for values in the `int64` range. -/
theorem bd_signal_test_width (x : ℤ) (p : Nat) (hp : p ≤ 63)
    (hx : p = 63 → -(2 ^ 63) ≤ x ∧ x < 2 ^ 63) :
    decide (land64 x (shl1 p) ≠ 0) = x.testBit p := by
  rcases Nat.lt_or_ge p 63 with h | h
  · exact bd_signal_test x p (by omega)
  · have hp63 : p = 63 := by omega
    subst hp63
    obtain ⟨hlo, hhi⟩ := hx rfl
    exact bd_signal_test63 x hlo hhi

/-- C5: a `Flag` whose name does not begin with `"!"` appends exactly one
element, the name when bit `pos` of the value is 1 and `"!" ++ name` when
it is 0; building the flag from `"!" ++ name` flips this mapping while
displaying the same un-prefixed base name in both outcomes.  The position
may be any in-width bit, including the sign bit 63, where the value is
required to lie in the Go `int64` range. -/
theorem flag_decode_spec (pos : Nat) (name : String) (acc : List String)
    (v : ℤ) (hpos : pos ≤ 63)
    (hv : pos = 63 → -(2 ^ 63) ≤ v ∧ v < 2 ^ 63)
    (hname : bindec.hasBang name = false) :
    bindec.Flag pos name acc v =
      some (acc ++ [if v.testBit pos then name else "!" ++ name]) ∧
    bindec.Flag pos ("!" ++ name) acc v =
      some (acc ++ [if v.testBit pos then "!" ++ name else name]) := by
  constructor
  · have hF : bindec.Flag pos name = bindec.signalDecode
        { pos := pos, mask := shl1 pos, name := name,
          isFlag := true, negate := false } := by
      unfold bindec.Flag
      simp [hname]
    rw [hF]
    simp [bindec.signalDecode, bd_signal_test_width v pos hpos hv]
  · have hF : bindec.Flag pos ("!" ++ name) = bindec.signalDecode
        { pos := pos, mask := shl1 pos, name := name,
          isFlag := true, negate := true } := by
      unfold bindec.Flag
      simp [bd_hasBang_append, bd_dropBang_append]
    rw [hF]
    simp only [bindec.signalDecode, bd_signal_test_width v pos hpos hv]
    cases h : v.testBit pos <;> simp [h]

/-- Witness for C5: bit 3 of the value 8 is set, and the sign bit of -1 is
set at position 63. -/
theorem flag_decode_spec_witness :
    (bindec.Flag 3 "EN" [] 8 = some ["EN"] ∧
     bindec.Flag 3 ("!" ++ "EN") [] 8 = some ["!EN"]) ∧
    bindec.Flag 63 "EN" [] (-1) = some ["EN"] := by
  have h1 := flag_decode_spec 3 "EN" [] 8 (by norm_num) (by omega) (by rfl)
  have h2 := flag_decode_spec 63 "EN" [] (-1) (by norm_num) (by omega)
    (by rfl)
  refine ⟨⟨?_, ?_⟩, ?_⟩
  · rw [h1.1]
    decide
  · rw [h1.2]
    decide
  · rw [h2.1]
    decide

/-- C6: a `Sig` appends nothing when bit `pos` of the value is 0; when the
bit is 1 it appends exactly one token, the configured name, except that
the literal sentinel name `"<reserved>"` is rendered as
`"bit {pos}: <reserved>"`.  The position may be any in-width bit,
including the sign bit 63, where the value is required to lie in the Go
`int64` range. -/
theorem sig_decode_spec (pos : Nat) (name : String) (acc : List String)
    (v : ℤ) (hpos : pos ≤ 63)
    (hv : pos = 63 → -(2 ^ 63) ≤ v ∧ v < 2 ^ 63) :
    bindec.Sig pos name acc v =
      (if v.testBit pos = false then some acc
       else if name = "<reserved>" then
         some (acc ++ ["bit " ++ toString pos ++ ": " ++ "<reserved>"])
       else some (acc ++ [name])) := by
  have hiff : (land64 v (shl1 pos) = 0) ↔ (v.testBit pos = false) := by
    rw [← bd_signal_test_width v pos hpos hv, decide_eq_false_iff_not,
      not_not]
  cases h : v.testBit pos
  · have h0 : land64 v (shl1 pos) = 0 := hiff.mpr h
    simp [bindec.Sig, bindec.signalDecode, h0, h]
  · have hne : ¬ land64 v (shl1 pos) = 0 := fun hc => by
      rw [hiff.mp hc] at h
      cases h
    simp only [bindec.Sig, bindec.signalDecode, h]
    rw [if_neg hne]
    by_cases hn : name = "<reserved>" <;> simp [hn]

/-- Witness for C6: the reserved sentinel at a set bit, a clear bit, and
the sign bit of a negative value at position 63. -/
theorem sig_decode_spec_witness :
    (bindec.Sig 2 "<reserved>" [] 4 = some ["bit 2: <reserved>"] ∧
     bindec.Sig 2 "S" [] 3 = some []) ∧
    bindec.Sig 63 "NEG" [] (-1) = some ["NEG"] := by
  refine ⟨⟨?_, ?_⟩, ?_⟩
  · rw [sig_decode_spec 2 "<reserved>" [] 4 (by norm_num) (by omega)]
    decide
  · rw [sig_decode_spec 2 "S" [] 3 (by norm_num) (by omega)]
    decide
  · rw [sig_decode_spec 63 "NEG" [] (-1) (by norm_num) (by omega)]
    decide

/-- C8: for `startBit ≤ endBit` with `endBit + 1` below the 64-bit host
width, the constructor mask `((1 << (e+1)) - 1) - ((1 << s) - 1)` equals
the xor form `((1 << (e+1)) - 1) XOR ((1 << s) - 1)`; exactly the bits
`s` through `e` inclusive are set; and the extracted field
`(v & mask) >> s` is the number formed by bits `s` through `e` of the
value. -/
theorem mask_spec (s e : Nat) (hse : s ≤ e) (he : e + 1 < 64) :
    bindec.mkMask s e =
      Int.xor ((2 : ℤ) ^ (e + 1) - 1) ((2 : ℤ) ^ s - 1) ∧
    (∀ i : Nat, (bindec.mkMask s e).testBit i = decide (s ≤ i ∧ i ≤ e)) ∧
    (∀ v : ℤ, 0 ≤ v →
      asr (land64 v (bindec.mkMask s e)) s = v / 2 ^ s % 2 ^ (e + 1 - s)) := by
  have he62 : e ≤ 62 := by omega
  have hcast := bd_mkMask_natCast hse he62
  have hnat : ∀ i : Nat,
      (2 ^ (e + 1) - 2 ^ s : Nat).testBit i = decide (s ≤ i ∧ i ≤ e) :=
    bd_natMask_testBit hse
  refine ⟨?_, ?_, ?_⟩
  · have h1 : ((2 : ℤ) ^ (e + 1) - 1) = (((2 ^ (e + 1) - 1 : Nat)) : ℤ) := by
      rw [Nat.cast_sub (Nat.one_le_pow (e + 1) 2 (by norm_num))]
      push_cast
      ring
    have h2 : ((2 : ℤ) ^ s - 1) = (((2 ^ s - 1 : Nat)) : ℤ) := by
      rw [Nat.cast_sub (Nat.one_le_pow s 2 (by norm_num))]
      push_cast
      ring
    have hx : Int.xor (((2 ^ (e + 1) - 1 : Nat)) : ℤ)
        (((2 ^ s - 1 : Nat)) : ℤ) =
        ((((2 ^ (e + 1) - 1) ^^^ (2 ^ s - 1) : Nat)) : ℤ) := rfl
    rw [hcast, h1, h2, hx]
    congr 1
    apply Nat.eq_of_testBit_eq
    intro i
    rw [hnat i, Nat.testBit_xor, Nat.testBit_two_pow_sub_one,
      Nat.testBit_two_pow_sub_one]
    by_cases h1 : i < s <;> by_cases h2 : i < e + 1 <;>
      simp [h1, h2] <;> omega
  · intro i
    rw [hcast]
    have hred : Int.testBit (((2 ^ (e + 1) - 2 ^ s : Nat)) : ℤ) i =
        (2 ^ (e + 1) - 2 ^ s : Nat).testBit i := rfl
    rw [hred, hnat i]
  · intro v hv
    obtain ⟨n, rfl⟩ := Int.eq_ofNat_of_zero_le hv
    rw [hcast, bd_land64_natCast n _, bd_asr_natCast, bd_nat_extract n hse]
    push_cast
    rfl

/-- Witness for C8 at the bit range 1..3. -/
theorem mask_spec_witness :
    bindec.mkMask 1 3 = Int.xor ((2 : ℤ) ^ 4 - 1) ((2 : ℤ) ^ 1 - 1) ∧
    (bindec.mkMask 1 3).testBit 2 = true ∧
    asr (land64 6 (bindec.mkMask 1 3)) 1 = 3 := by
  have h := mask_spec 1 3 (by norm_num) (by norm_num)
  refine ⟨h.1, ?_, ?_⟩
  · rw [h.2.1 2]
    decide
  · rw [h.2.2 6 (by norm_num)]
    decide

/-- C9: every decoder tree built from the public constructors with bit
positions within the 64-bit host width decodes totally: for every
accumulator and every value, including negative ones, the result is a
sequence and never a panic; in particular the extracted field of `Val` is
nonnegative, so the names-table access is in bounds whenever it is
evaluated. -/
theorem decode_total (d : bindec.Decoder) (hd : bindec.Built d)
    (acc : List String) (v : ℤ) : ∃ out, d acc v = some out := by
  induction hd generalizing acc v with
  | sig pos name h => exact bd_signalDecode_total _ acc v
  | flag pos name h =>
    unfold bindec.Flag
    by_cases hb : bindec.hasBang name
    · rw [if_pos hb]
      exact bd_signalDecode_total _ acc v
    · rw [if_neg hb]
      exact bd_signalDecode_total _ acc v
  | val s e desc names dflt hse he =>
    exact bd_val_total s e desc names dflt hse he acc v
  | int s e desc format hse he => exact bd_intvalDecode_total _ acc v
  | func s e desc f hse he => exact bd_intvalDecode_total _ acc v
  | list ds h ih => exact bd_decoderListDecode_total ds ih acc v
  | shifted pos d2 h ih => exact ih acc (asr v pos)
  | grouped name d2 h ih =>
    obtain ⟨sub, hsub⟩ := ih [] v
    by_cases hs : sub = []
    · exact ⟨acc, by simp [bindec.Group, bindec.groupDecode, hsub, hs]⟩
    · exact ⟨acc ++ name :: sub.map (fun line => "\t" ++ line),
        by simp [bindec.Group, bindec.groupDecode, hsub, hs]⟩

/-- Witness for C9: a group over a list of a signal and an enumeration,
decoded at a negative value. -/
theorem decode_total_witness :
    ∃ out, bindec.Group "G" (bindec.decoderListDecode
      [bindec.Sig 0 "A", bindec.Val 0 1 "d" ["a", "b", "c", "d"] "x"])
      [] (-5) = some out := by
  apply decode_total
  apply bindec.Built.grouped
  apply bindec.Built.list
  intro d hd
  simp only [List.mem_cons, List.not_mem_nil, or_false] at hd
  rcases hd with rfl | rfl
  · exact bindec.Built.sig 0 "A" (by norm_num)
  · exact bindec.Built.val 0 1 "d" ["a", "b", "c", "d"] "x" (by norm_num)
      (by norm_num)
